import Mathlib

/-!
Verification of the `distributed-prime-numbers` core

A shallow embedding of the `distributed-prime-numbers` orchestrator
(`distributed-prime-numbers.cpp`), its worker
(`distributed-prime-numbers-helper.cpp`) and the shared-memory helper
header (`shared_memory.hpp`), together with proofs about the embedded
definitions.

Machine unsigned integers (`std::uintmax_t`, `std::size_t`) are modelled
as `ℕ`, with explicit reduction modulo `2 ^ w` where native wrap-around
matters; machine signed integers (`std::intmax_t`) are modelled as `ℤ`.
The random draws of the Fermat test are modelled as an explicit list of
witnesses, and the observable actions of each process (stream writes,
shared-resource creation and removal, semaphore operations) as an
explicit trace of effects.
-/

namespace DistributedPrimes

/-! Modular exponentiation (`distributed-prime-numbers-helper.cpp`, `mod_pow`)

The C source:
```
// Precondition: n != 0.
std::uintmax_t mod_pow(std::uintmax_t x, std::uintmax_t y, std::uintmax_t n) {
  if (y == 0)
    return 1;
  std::uintmax_t z = mod_pow(x, y / 2, n);
  if (y % 2 == 0)
    return z * z % n;
  return x * z * z % n;
}
```
-/

/-- Exact model of `mod_pow`: the recursion of the C function read over
exact (arbitrary-precision) natural-number arithmetic. -/
def mod_pow (x y n : ℕ) : ℕ :=
  if h : y = 0 then 1
  else
    let z := mod_pow x (y / 2) n
    if y % 2 = 0 then z * z % n else x * z * z % n
termination_by y
decreasing_by exact Nat.div_lt_self (Nat.pos_of_ne_zero h) Nat.one_lt_two

/-- Native-width model of `mod_pow`: the same recursion with every multiplication
performed in `w`-bit machine arithmetic, i.e. reduced modulo `2 ^ w`
(the faithful model of the `std::uintmax_t` computation; products such
as `z * z` and `x * z * z` wrap before `% n` is applied). -/
def mod_pow_w (w x y n : ℕ) : ℕ :=
  if h : y = 0 then 1
  else
    let z := mod_pow_w w x (y / 2) n
    if y % 2 = 0 then z * z % 2 ^ w % n else x * z * z % 2 ^ w % n
termination_by y
decreasing_by exact Nat.div_lt_self (Nat.pos_of_ne_zero h) Nat.one_lt_two

/-! Primality test (`distributed-prime-numbers-helper.cpp`, `is_prime`)

The C source draws `PRIMALITY_TEST_COUNT` random witnesses in
`[1, n - 1]` and returns false as soon as one fails the Fermat test:
```
bool is_prime(std::uintmax_t n) {
  if (n < 2)
    return false;
  for (std::size_t i = 0; i < PRIMALITY_TEST_COUNT; i++) {
    const std::uintmax_t a = random_int<std::uintmax_t>(1, n - 1);
    if (mod_pow(a, n - 1, n) != 1)
      return false;
  }
  return true;
}
```
The random draws are modelled as an explicit list `ws` of witnesses; the
early-`return` loop is `List.all`, which also stops at the first failed
witness.  The call `mod_pow(a, n - 1, n)` runs on `std::uintmax_t`, so
it is the native `w`-bit `mod_pow_w`, whose intermediate products wrap
modulo `2 ^ w`. -/
def is_prime (w n : ℕ) (ws : List ℕ) : Bool :=
  if n < 2 then false
  else ws.all fun a => mod_pow_w w a (n - 1) n == 1

/-! Range partitioning (`distributed-prime-numbers.cpp`, lines 98–126)

The orchestrator computes `range_div = div(max_prime, process_count)` and
then, for each `i`:
```
range_sizes[i]   = range_div.quot + (i == 0 ? range_div.rem : 0);
range_offsets[i] = i * range_sizes[i] + (i > 0 ? range_div.rem : 0);
```
with `bound = max_prime` and `k = process_count`. -/

/-- The size `range_sizes[i]` as computed by the orchestrator. -/
def range_size (bound k i : ℕ) : ℕ :=
  bound / k + (if i = 0 then bound % k else 0)

/-- The offset `range_offsets[i]` as computed by the orchestrator (note
that it uses the just-assigned `range_sizes[i]`). -/
def range_offset (bound k i : ℕ) : ℕ :=
  i * range_size bound k i + (if 0 < i then bound % k else 0)

/-! Aggregation (`distributed-prime-numbers.cpp`, lines 149–159)

The orchestrator's output loop:
```
for (std::size_t i = 0; i < process_count; i++) {
  const shm_vector<bool>& prime_table = prime_tables[i];
  for (std::size_t j = 0; j < prime_table.size(); j++) {
    if (prime_table[j]) {
      std::cout << (range_offsets[i] + j) << std::endl;
      if (--prime_count == 0)
        goto exit;
    }
  }
}
```
The inner loop over one vector is `emitRow`; it returns the emitted
values, the remaining `prime_count`, and whether `goto exit` fired.
`aggTables` is the outer loop over the vectors. -/

/-- Inner aggregation loop over one boolean vector, starting at entry
index `j` with remaining requested count `c` (an `std::intmax_t`).
Returns the emitted integers, the remaining count, and whether the
`goto exit` (triggered by `--prime_count == 0`) fired. -/
def emitRow (offset j : ℕ) (c : ℤ) : List Bool → List ℕ × ℤ × Bool
  | [] => ([], c, false)
  | b :: rest =>
    if b then
      if c - 1 = 0 then ([offset + j], c - 1, true)
      else
        let p := emitRow offset (j + 1) (c - 1) rest
        ((offset + j) :: p.1, p.2)
    else emitRow offset (j + 1) c rest

/-- Outer aggregation loop over the list of `(offset, vector)` tables;
stops as soon as a row's `goto exit` fired. -/
def aggTables (c : ℤ) : List (ℕ × List Bool) → List ℕ
  | [] => []
  | t :: rest =>
    let p := emitRow t.1 0 c t.2
    if p.2.2 then p.1 else p.1 ++ aggTables p.2.1 rest

/-- Specification device for stating properties of the aggregation loop:
the full list of values `offset + index` over the true entries of one
vector, in ascending index order starting at `j`. -/
def rowEmits (offset j : ℕ) : List Bool → List ℕ
  | [] => []
  | b :: rest =>
    if b then (offset + j) :: rowEmits offset (j + 1) rest
    else rowEmits offset (j + 1) rest

/-- Specification device: the full walk-order list of `offset + index`
values over the true entries of all tables. -/
def allEmits (ts : List (ℕ × List Bool)) : List ℕ :=
  (ts.map fun t => rowEmits t.1 0 t.2).flatten

/-- A shared-store vector of exactly `n` entries whose contents are the
(arbitrary) worker-written booleans `row`, missing entries reading as
the initial `false`. -/
def padRow (row : List Bool) (n : ℕ) : List Bool :=
  (List.range n).map fun j => row.getD j false

/-- The list of `(range_offsets[i], prime_tables[i])` pairs the
aggregation loop walks, in partition id order. -/
def mkTables (bound k : ℕ) (rows : ℕ → List Bool) : List (ℕ × List Bool) :=
  (List.range k).map fun i => (range_offset bound k i, rows i)

/-! Orchestrator control flow (`distributed-prime-numbers.cpp`, `main`)

`main` registers `clean_up` with `atexit` first of all, so every exit
path ends by removing the named semaphore and the named shared-memory
segment:
```
void clean_up() {
  boost::interprocess::named_semaphore::remove(kSemaphoreName);
  boost::interprocess::shared_memory_object::remove(kSharedMemorySegmentName);
}
```
A command-line argument is modelled as `Option ℤ`: `none` is a
non-numeric argument (`strtoimax` leaves the end pointer at the start),
`some v` a parsed `std::intmax_t` value.  The floating-point Rosser
bound `max_prime` is kept abstract as a parameter `bound`, and the
vector contents the workers wrote are the parameter `rows`.  The model
covers the exception-free execution of the `try` block. -/

/-- Outcome of the argument-validation prefix of the orchestrator's
`main`. -/
inductive Validation
  | exitError
  | exitOk
  | proceed (pc wc : ℤ)
  deriving DecidableEq

/-- The argument-validation prefix of the orchestrator's `main`:
`check_argument` on both arguments (non-numeric or negative fails), the
`prime_count == 0` early exit, the `process_count == 0` default
substitution `min(CPU_COUNT, prime_count)`, and the
`process_count > prime_count` rejection. -/
def validate (a1 a2 : Option ℤ) (cpu : ℤ) : Validation :=
  match a1 with
  | none => .exitError
  | some pc =>
    if pc < 0 then .exitError
    else
      match a2 with
      | none => .exitError
      | some wc =>
        if wc < 0 then .exitError
        else if pc = 0 then .exitOk
        else
          let wc2 := if wc = 0 then min cpu pc else wc
          if wc2 > pc then .exitError else .proceed pc wc2

/-- Observable actions of the orchestrator process, in program order. -/
inductive Effect
  | errMsg
  | createSegment
  | createTables
  | createSemaphore
  | launchWorker (i : ℕ)
  | waitSem
  | output (v : ℕ)
  | destroyTables
  | removeSemaphore
  | removeSegment
  deriving DecidableEq

/-- Exit status and effect trace of the orchestrator's `main` (the
exception-free execution): validation, then segment/table/semaphore
creation, one launch and one wait per worker, the aggregation output,
table destruction, and the unconditional `atexit` cleanup. -/
def main_trace (a1 a2 : Option ℤ) (cpu : ℤ) (bound : ℕ) (rows : ℕ → List Bool) :
    ℤ × List Effect :=
  match validate a1 a2 cpu with
  | .exitError => (1, [.errMsg, .removeSemaphore, .removeSegment])
  | .exitOk => (0, [.removeSemaphore, .removeSegment])
  | .proceed pc wc =>
    let k := wc.toNat
    (0, [.createSegment, .createTables, .createSemaphore]
      ++ ((List.range k).map Effect.launchWorker)
      ++ ((List.range k).map fun _ => Effect.waitSem)
      ++ ((aggTables pc
            (mkTables bound k fun i => padRow (rows i) (range_size bound k i))).map
          Effect.output)
      ++ [.destroyTables, .removeSemaphore, .removeSegment])

/-! Worker process (`distributed-prime-numbers-helper.cpp`, `main`)

After validating its three arguments, the worker runs
```
for (std::size_t i = 0; i < size; i++)
  prime_tables[range_id][i] = is_prime(offset + i);
n_done.post();
```
The random witnesses drawn by `is_prime` at loop iteration `i` are
modelled by `ws i`, and the native unsigned width by `w`. -/

/-- Observable actions of a worker process. -/
inductive WEffect
  | write (id idx : ℕ) (v : Bool)
  | post
  | errMsg
  deriving DecidableEq

/-- Effect trace of the worker's testing loop followed by its single
semaphore post. -/
def worker_trace (w rid offset sz : ℕ) (ws : ℕ → List ℕ) : List WEffect :=
  ((List.range sz).map fun i => WEffect.write rid i (is_prime w (offset + i) (ws i)))
    ++ [WEffect.post]

/-- Exit status and effect trace of the worker's `main`: `check_argument`
on the three arguments, then the testing loop and the post. -/
def worker_main (w : ℕ) (a1 a2 a3 : Option ℤ) (ws : ℕ → List ℕ) :
    ℤ × List WEffect :=
  match a1 with
  | none => (1, [.errMsg])
  | some rid =>
    if rid < 0 then (1, [.errMsg])
    else
      match a2 with
      | none => (1, [.errMsg])
      | some off =>
        if off < 0 then (1, [.errMsg])
        else
          match a3 with
          | none => (1, [.errMsg])
          | some sz =>
            if sz < 0 then (1, [.errMsg])
            else (0, worker_trace w rid.toNat off.toNat sz.toNat ws)

/-- Semantics of one worker effect on the shared result store, the store
being one boolean vector per partition id. -/
def apply_write (store : ℕ → List Bool) : WEffect → (ℕ → List Bool)
  | .write i idx v => fun q => if q = i then (store i).set idx v else store q
  | _ => store

/-- Run a worker effect trace on a store state. -/
def run_effects (store : ℕ → List Bool) (es : List WEffect) : ℕ → List Bool :=
  es.foldl apply_write store

/-! Alignment helper (`shared_memory.hpp`, `align`)

```
template<std::size_t Alignment>
constexpr std::size_t align(std::size_t n) noexcept {
  return n + (Alignment - 1) & ~(Alignment - 1);
}
```
instantiated at `Alignment = kAlignment = 512`.  By C++ precedence this
is `(n + 511) & ~511`; on a `w`-bit `std::size_t` the sum wraps modulo
`2 ^ w` and `~511` is `2 ^ w - 1 - 511`. -/

/-- The function `align<512>` on a `w`-bit `std::size_t`. -/
def align512 (w n : ℕ) : ℕ :=
  ((n + 511) % 2 ^ w) &&& (2 ^ w - 1 - 511)

/-! End of the embedded definitions; everything below is a proof about
them. -/

/-- Closed form of `range_offset`. -/
lemma range_offset_eq (bound k i : ℕ) :
    range_offset bound k i = i * (bound / k) + (if 0 < i then bound % k else 0) := by
  unfold range_offset range_size
  rcases Nat.eq_zero_or_pos i with hi | hi
  · simp [hi]
  · have : ¬ i = 0 := Nat.pos_iff_ne_zero.mp hi
    simp [this, hi, Nat.mul_add]

/-- Closed form of the right endpoint `range_offset + range_size`. -/
lemma range_end_eq (bound k i : ℕ) :
    range_offset bound k i + range_size bound k i
      = (i + 1) * (bound / k) + bound % k := by
  rw [range_offset_eq]
  unfold range_size
  rcases Nat.eq_zero_or_pos i with hi | hi
  · simp [hi]
  · have : ¬ i = 0 := Nat.pos_iff_ne_zero.mp hi
    simp [this, hi]
    ring

/-- Unfolding equation for `mod_pow` at `y = 0`. -/
lemma mod_pow_zero (x n : ℕ) : mod_pow x 0 n = 1 := by
  rw [mod_pow]
  simp

/-- Unfolding equation for `mod_pow` at `y ≠ 0`. -/
lemma mod_pow_succ (x y n : ℕ) (hy : y ≠ 0) :
    mod_pow x y n =
      (if y % 2 = 0 then mod_pow x (y / 2) n * mod_pow x (y / 2) n % n
       else x * mod_pow x (y / 2) n * mod_pow x (y / 2) n % n) := by
  rw [mod_pow]
  simp [hy]

/-- Unfolding equation for `mod_pow_w` at `y = 0`. -/
lemma mod_pow_w_zero (w x n : ℕ) : mod_pow_w w x 0 n = 1 := by
  rw [mod_pow_w]
  simp

/-- Unfolding equation for `mod_pow_w` at `y ≠ 0`. -/
lemma mod_pow_w_succ (w x y n : ℕ) (hy : y ≠ 0) :
    mod_pow_w w x y n =
      (if y % 2 = 0 then
        mod_pow_w w x (y / 2) n * mod_pow_w w x (y / 2) n % 2 ^ w % n
       else x * mod_pow_w w x (y / 2) n * mod_pow_w w x (y / 2) n % 2 ^ w % n) := by
  rw [mod_pow_w]
  simp [hy]

/-- With exact arithmetic, `mod_pow` computes `x ^ y % n` for every
modulus `n ≥ 1`, except that for `n = 1` and `y = 0` it returns `1`
where `x ^ 0 % 1 = 0`. -/
lemma mod_pow_eq (x : ℕ) : ∀ y n : ℕ, n ≠ 0 →
    mod_pow x y n = if n = 1 ∧ y = 0 then 1 else x ^ y % n := by
  intro y
  induction y using Nat.strong_induction_on with
  | _ y ih =>
    intro n hn
    rcases Nat.eq_zero_or_pos y with hy | hy
    · subst hy
      rw [mod_pow_zero]
      by_cases h1 : n = 1
      · simp [h1]
      · have h2 : 1 < n := by omega
        simp [h1, Nat.mod_eq_of_lt h2]
    · have hy' : y ≠ 0 := Nat.pos_iff_ne_zero.mp hy
      have hlt : y / 2 < y := Nat.div_lt_self hy Nat.one_lt_two
      have hz := ih (y / 2) hlt n hn
      have hrhs : (if n = 1 ∧ y = 0 then 1 else x ^ y % n) = x ^ y % n := by
        simp [hy']
      rw [hrhs, mod_pow_succ x y n hy']
      by_cases h1 : n = 1
      · subst h1
        simp [Nat.mod_one]
      · have hz' : mod_pow x (y / 2) n = x ^ (y / 2) % n := by
          rw [hz]; simp [h1]
        rw [hz']
        have h1m : x ^ (y / 2) % n ≡ x ^ (y / 2) [MOD n] := Nat.mod_modEq _ n
        by_cases hpar : y % 2 = 0
        · have hsum : y / 2 + y / 2 = y := by omega
          rw [if_pos hpar]
          show x ^ (y / 2) % n * (x ^ (y / 2) % n) ≡ x ^ y [MOD n]
          calc x ^ (y / 2) % n * (x ^ (y / 2) % n)
              ≡ x ^ (y / 2) * x ^ (y / 2) [MOD n] := h1m.mul h1m
            _ = x ^ y := by rw [← pow_add, hsum]
        · have hsum : y / 2 + y / 2 + 1 = y := by omega
          rw [if_neg hpar]
          show x * (x ^ (y / 2) % n) * (x ^ (y / 2) % n) ≡ x ^ y [MOD n]
          calc x * (x ^ (y / 2) % n) * (x ^ (y / 2) % n)
              ≡ x * x ^ (y / 2) * x ^ (y / 2) [MOD n] := (h1m.mul_left x).mul h1m
            _ = x ^ y := by
                rw [mul_assoc, ← pow_add, ← pow_succ', hsum]

/-- Evaluation of the native-width `mod_pow` at exponent 1 on the
counterexample inputs. -/
lemma mod_pow_w_eval_one :
    mod_pow_w 64 (2 ^ 32) 1 (2 ^ 64 - 1) = 2 ^ 32 := by
  rw [mod_pow_w_succ 64 (2 ^ 32) 1 (2 ^ 64 - 1) (by norm_num)]
  norm_num [mod_pow_w_zero]

/-- Evaluation of the native-width `mod_pow` at exponent 2 on the
counterexample inputs: the intermediate square `2 ^ 64` wraps to `0`. -/
lemma mod_pow_w_eval_two :
    mod_pow_w 64 (2 ^ 32) 2 (2 ^ 64 - 1) = 0 := by
  rw [mod_pow_w_succ 64 (2 ^ 32) 2 (2 ^ 64 - 1) (by norm_num),
    show (2 : ℕ) / 2 = 1 from rfl, mod_pow_w_eval_one]
  norm_num

/-- C1, counterexample: on a 64-bit unsigned width, with base `2 ^ 32`,
exponent `2` and modulus `2 ^ 64 - 1`, the intermediate squaring
`z * z` wraps modulo `2 ^ 64`, so `mod_pow` returns `0` while
`base ^ exponent mod modulus = 1`: the claimed no-overflow property and
the claimed return value both fail. -/
theorem c1_mod_pow_counterexample :
    mod_pow_w 64 (2 ^ 32) 2 (2 ^ 64 - 1) = 0 ∧
      (2 ^ 32 : ℕ) ^ 2 % (2 ^ 64 - 1) = 1 := by
  refine ⟨mod_pow_w_eval_two, ?_⟩
  norm_num

/-- C1 (amended): with exact (overflow-free) arithmetic, for every
`modulus ≠ 0`, `mod_pow base exponent modulus` returns
`base ^ exponent mod modulus`, except that for `modulus = 1` and
`exponent = 0` it returns `1` instead of `0`.  (The intermediate
products `z * z` and `x * z * z` are not reduced before multiplying, so
on the native `w`-bit width the result can differ; see the
counterexample.) -/
theorem c1_mod_pow_exact (x y n : ℕ) (hn : n ≠ 0) :
    mod_pow x y n = if n = 1 ∧ y = 0 then 1 else x ^ y % n :=
  mod_pow_eq x y n hn

/-- C1, witness: the amended theorem applied at base 2, exponent 3,
modulus 5. -/
theorem c1_mod_pow_exact_witness : mod_pow 2 3 5 = 3 := by
  have h := c1_mod_pow_exact 2 3 5 (by norm_num)
  rw [h]
  norm_num

/-- Every partition size is positive once `worker_count ≤ bound`. -/
lemma range_size_pos (bound k i : ℕ) (hk : 0 < k) (hkb : k ≤ bound) :
    0 < range_size bound k i := by
  have hq : 0 < bound / k := Nat.div_pos hkb hk
  unfold range_size
  omega

/-- Partition `i`'s right endpoint is at most `bound` for `i < k`. -/
lemma range_end_le (bound k i : ℕ) (hk : 0 < k) (hik : i < k) :
    range_offset bound k i + range_size bound k i ≤ bound := by
  rw [range_end_eq]
  have hmul : (i + 1) * (bound / k) ≤ k * (bound / k) :=
    Nat.mul_le_mul_right _ (by omega)
  have hdm : k * (bound / k) + bound % k = bound := Nat.div_add_mod bound k
  omega

/-- Partitions listed earlier end no later than later ones start. -/
lemma range_disjoint (bound k i j : ℕ) (hij : i < j) :
    range_offset bound k i + range_size bound k i ≤ range_offset bound k j := by
  rw [range_end_eq, range_offset_eq]
  have hj : 0 < j := by omega
  rw [if_pos hj]
  have hmul : (i + 1) * (bound / k) ≤ j * (bound / k) :=
    Nat.mul_le_mul_right _ (by omega)
  omega

/-- C2: for every `bound > 0` and `worker_count = k ∈ [1, bound]`, the
orchestrator's partitioning yields `k` contiguous partitions: sizes sum
to `bound`, the first offset is `0`, each offset is the previous
offset plus the previous size, the half-open ranges are pairwise
disjoint, their union is exactly `[0, bound)`, and offsets are strictly
increasing in partition id (so id order equals ascending numeric range
order). -/
theorem c2_partition_correct (bound k : ℕ) (hb : 0 < bound) (hk : 1 ≤ k)
    (hkb : k ≤ bound) :
    (∑ i ∈ Finset.range k, range_size bound k i) = bound ∧
    range_offset bound k 0 = 0 ∧
    (∀ i, i + 1 < k →
      range_offset bound k (i + 1) = range_offset bound k i + range_size bound k i) ∧
    (∀ i j, i < j → j < k →
      range_offset bound k i + range_size bound k i ≤ range_offset bound k j) ∧
    (∀ m, m < bound ↔ ∃ i, i < k ∧ range_offset bound k i ≤ m ∧
      m < range_offset bound k i + range_size bound k i) ∧
    (∀ i j, i < j → j < k → range_offset bound k i < range_offset bound k j) := by
  have hk0 : 0 < k := hk
  have hq : 0 < bound / k := Nat.div_pos hkb hk0
  have hdm : k * (bound / k) + bound % k = bound := Nat.div_add_mod bound k
  refine ⟨?_, ?_, ?_, ?_, ?_, ?_⟩
  · -- sizes sum to bound
    unfold range_size
    rw [Finset.sum_add_distrib, Finset.sum_const, Finset.card_range, smul_eq_mul]
    rw [Finset.sum_ite_eq' (Finset.range k) 0 fun _ => bound % k]
    simp [Finset.mem_range, hk0, hdm]
  · -- first offset is 0
    simp [range_offset]
  · -- contiguity
    intro i _
    rw [range_end_eq, range_offset_eq]
    simp
  · -- disjointness
    intro i j hij _
    exact range_disjoint bound k i j hij
  · -- union is exactly [0, bound)
    intro m
    constructor
    · intro hm
      by_cases hm0 : m < bound / k + bound % k
      · refine ⟨0, hk0, ?_, ?_⟩
        · simp [range_offset]
        · rw [range_end_eq]
          omega
      · have hrm : bound % k ≤ m := by omega
        set d := (m - bound % k) / (bound / k) with hd
        have hA : d * (bound / k) ≤ m - bound % k := Nat.div_mul_le_self _ _
        have hB : m - bound % k < (d + 1) * (bound / k) := by
          have h1 := Nat.div_add_mod (m - bound % k) (bound / k)
          have h2 := Nat.mod_lt (m - bound % k) hq
          calc m - bound % k
              = bound / k * d + (m - bound % k) % (bound / k) := h1.symm
            _ < bound / k * d + bound / k := Nat.add_lt_add_left h2 _
            _ = (d + 1) * (bound / k) := by ring
        have hd1 : 0 < d := Nat.div_pos (by omega) hq
        have hdk : d < k := by
          rw [hd, Nat.div_lt_iff_lt_mul hq]
          omega
        refine ⟨d, hdk, ?_, ?_⟩
        · rw [range_offset_eq, if_pos hd1]
          omega
        · rw [range_end_eq]
          omega
    · rintro ⟨i, hik, _, hm2⟩
      have := range_end_le bound k i hk0 hik
      omega
  · -- strictly increasing offsets
    intro i j hij hjk
    have h1 := range_disjoint bound k i j hij
    have h2 := range_size_pos bound k i hk0 hkb
    omega

/-- C2, witness: the partitioning theorem applied at `bound = 10`,
`worker_count = 4`. -/
theorem c2_partition_correct_witness :
    (∑ i ∈ Finset.range 4, range_size 10 4 i) = 10 ∧ range_offset 10 4 0 = 0 :=
  ⟨(c2_partition_correct 10 4 (by norm_num) (by norm_num) (by norm_num)).1,
   (c2_partition_correct 10 4 (by norm_num) (by norm_num) (by norm_num)).2.1⟩

/-- C3, counterexample: at `bound = 10` and `worker_count = 4` (which
satisfy `bound > 0` and `worker_count ∈ [1, bound]`), the partition
sizes are `4, 2, 2, 2`: partition 0 absorbs the whole remainder, so two
sizes differ by `2 > 1`. -/
theorem c3_sizes_counterexample :
    (0 < 10 ∧ 1 ≤ 4 ∧ 4 ≤ 10) ∧
      ¬ (∀ i j, i < 4 → j < 4 → range_size 10 4 i ≤ range_size 10 4 j + 1) := by
  refine ⟨by norm_num, fun h => ?_⟩
  have := h 0 1 (by norm_num) (by norm_num)
  revert this
  decide

/-- C3 (amended): for every `bound > 0` and `worker_count = k ∈ [1, bound]`,
partition 0 has size `bound / k + bound % k` and every later partition
has size `bound / k`: the entire remainder goes to the first partition,
so two partition sizes may differ by up to `bound % k` (which can
exceed 1), and any two of the later partitions have equal size. -/
theorem c3_sizes_remainder_first (bound k : ℕ) (hb : 0 < bound) (hk : 1 ≤ k)
    (hkb : k ≤ bound) :
    range_size bound k 0 = bound / k + bound % k ∧
    (∀ i, 0 < i → range_size bound k i = bound / k) ∧
    (∀ i j, range_size bound k i ≤ range_size bound k j + bound % k) := by
  refine ⟨by simp [range_size], fun i hi => ?_, fun i j => ?_⟩
  · have : ¬ i = 0 := by omega
    simp [range_size, this]
  · unfold range_size
    by_cases hi : i = 0 <;> by_cases hj : j = 0 <;> simp [hi, hj] <;> omega

/-- C3, witness: the amended theorem applied at `bound = 10`,
`worker_count = 4`. -/
theorem c3_sizes_remainder_first_witness :
    range_size 10 4 0 = 10 / 4 + 10 % 4 :=
  (c3_sizes_remainder_first 10 4 (by norm_num) (by norm_num) (by norm_num)).1

/-- Bitwise core of `align<512>`: masking a `w`-bit value with
`~511` (that is, `2 ^ w - 1 - 511`) clears its low 9 bits, i.e. rounds
it down to a multiple of `512`. -/
lemma land_mask (w x : ℕ) (hw : 9 ≤ w) (hx : x < 2 ^ w) :
    x &&& (2 ^ w - 1 - 511) = 512 * (x / 512) := by
  have hmask : 2 ^ w - 1 - 511 = (2 ^ (w - 9) - 1) <<< 9 := by
    have h1 : 2 ^ (w - 9) * 2 ^ 9 = 2 ^ w := by
      rw [← pow_add]
      congr 1
      omega
    rw [Nat.shiftLeft_eq, Nat.sub_mul, one_mul, h1]
    omega
  have hrhs : 512 * (x / 512) = (x >>> 9) <<< 9 := by
    rw [Nat.shiftRight_eq_div_pow, Nat.shiftLeft_eq]
    norm_num [mul_comm]
  rw [hmask, hrhs]
  apply Nat.eq_of_testBit_eq
  intro i
  rw [Nat.testBit_and, Nat.testBit_shiftLeft, Nat.testBit_shiftLeft,
    Nat.testBit_shiftRight, Nat.testBit_two_pow_sub_one]
  by_cases h9 : 9 ≤ i
  · have hi : 9 + (i - 9) = i := by omega
    rw [hi]
    by_cases hiw : i < w
    · have hlt : i - 9 < w - 9 := by omega
      simp [h9, hlt]
    · have hge : ¬ (i - 9 < w - 9) := by omega
      have hxb : x.testBit i = false :=
        Nat.testBit_lt_two_pow
          (lt_of_lt_of_le hx (Nat.pow_le_pow_right (by norm_num) (by omega)))
      simp [h9, hge, hxb]
  · simp [h9]

/-- C10: on a `w`-bit `std::size_t` (`w ≥ 10`), for every
`n ≤ SIZE_MAX - 511` the function `align<512>` returns the least
multiple of `512` that is `≥ n`; for the remaining `n` (within 511 of
`SIZE_MAX`), the addition `n + 511` wraps modulo `2 ^ w` and the result
is a multiple of `512` smaller than `n`, violating the documented
never-less-than-`n` postcondition. -/
theorem c10_align_rounds_up (w : ℕ) (hw : 10 ≤ w) :
    (∀ n, n ≤ 2 ^ w - 1 - 511 →
      512 ∣ align512 w n ∧ n ≤ align512 w n ∧
        ∀ m, 512 ∣ m → n ≤ m → align512 w n ≤ m) ∧
    (∀ n, 2 ^ w - 1 - 511 < n → n ≤ 2 ^ w - 1 →
      512 ∣ align512 w n ∧ align512 w n < n) := by
  have hw9 : 9 ≤ w := by omega
  have h2w : 1024 ≤ 2 ^ w := by
    calc (1024 : ℕ) = 2 ^ 10 := by norm_num
      _ ≤ 2 ^ w := Nat.pow_le_pow_right (by norm_num) hw
  constructor
  · intro n hn
    have hx : n + 511 < 2 ^ w := by omega
    have hmod : (n + 511) % 2 ^ w = n + 511 := Nat.mod_eq_of_lt hx
    have heq : align512 w n = 512 * ((n + 511) / 512) := by
      unfold align512
      rw [hmod, land_mask w (n + 511) hw9 hx]
    refine ⟨⟨_, heq⟩, ?_, ?_⟩
    · rw [heq]
      have h1 := Nat.div_add_mod (n + 511) 512
      have h2 : (n + 511) % 512 < 512 := Nat.mod_lt _ (by norm_num)
      omega
    · intro m hm hnm
      obtain ⟨t, rfl⟩ := hm
      rw [heq]
      have h1 : (n + 511) / 512 < t + 1 := by
        rw [Nat.div_lt_iff_lt_mul (by norm_num : (0:ℕ) < 512)]
        omega
      exact Nat.mul_le_mul_left 512 (by omega)
  · intro n hn1 hn2
    have hge : 2 ^ w ≤ n + 511 := by omega
    have hlt : n + 511 - 2 ^ w < 2 ^ w := by omega
    have hlow : (n + 511) % 2 ^ w = n + 511 - 2 ^ w := by
      rw [Nat.mod_eq_sub_mod hge, Nat.mod_eq_of_lt hlt]
    have hsmall : n + 511 - 2 ^ w < 512 := by omega
    have heq : align512 w n = 512 * ((n + 511 - 2 ^ w) / 512) := by
      unfold align512
      rw [hlow, land_mask w _ hw9 (by omega)]
    have hdiv : (n + 511 - 2 ^ w) / 512 = 0 := Nat.div_eq_of_lt hsmall
    rw [heq, hdiv, Nat.mul_zero]
    exact ⟨dvd_zero 512, by omega⟩

/-- C10, witness: the theorem applied at `w = 10`, `n = 5` and (for the
wrapping half) `n = 1023`. -/
theorem c10_align_rounds_up_witness :
    (512 ∣ align512 10 5 ∧ 5 ≤ align512 10 5) ∧
      (512 ∣ align512 10 1023 ∧ align512 10 1023 < 1023) := by
  have h1 := (c10_align_rounds_up 10 (by norm_num)).1 5 (by norm_num)
  have h2 := (c10_align_rounds_up 10 (by norm_num)).2 1023 (by norm_num) (by norm_num)
  exact ⟨⟨h1.1, h1.2.1⟩, h2⟩

/-- Fermat's little theorem in the form the primality test needs: for a
prime `n` and a witness `a ∈ [1, n - 1]`, `a ^ (n - 1) % n = 1`. -/
lemma fermat_witness_pow (n a : ℕ) (hp : n.Prime) (ha1 : 1 ≤ a)
    (ha2 : a ≤ n - 1) : a ^ (n - 1) % n = 1 := by
  have h2 : 2 ≤ n := hp.two_le
  have hna : ¬ n ∣ a := fun hdvd =>
    absurd (Nat.le_of_dvd (by omega) hdvd) (by omega)
  have hcop : Nat.Coprime a n := (hp.coprime_iff_not_dvd.mpr hna).symm
  have hfer : a ^ n.totient ≡ 1 [MOD n] := Nat.ModEq.pow_totient hcop
  rw [Nat.totient_prime hp] at hfer
  have h1 : a ^ (n - 1) % n = 1 % n := hfer
  rwa [Nat.mod_eq_of_lt (by omega : 1 < n)] at h1

/-- Every `mod_pow` result is below the modulus once the modulus is at
least 2. -/
lemma mod_pow_lt (x y n : ℕ) (hn : 2 ≤ n) : mod_pow x y n < n := by
  rcases Nat.eq_zero_or_pos y with hy | hy
  · subst hy
    rw [mod_pow_zero]
    omega
  · rw [mod_pow_succ x y n (by omega)]
    by_cases hp : y % 2 = 0
    · rw [if_pos hp]
      exact Nat.mod_lt _ (by omega)
    · rw [if_neg hp]
      exact Nat.mod_lt _ (by omega)

/-- When no intermediate product can reach `2 ^ w` — guaranteed by
`(n - 1)³ < 2 ^ w` for a base below the modulus — the native `w`-bit
`mod_pow` agrees with the exact one. -/
lemma mod_pow_w_eq_mod_pow (w x n : ℕ) (hn : 2 ≤ n) (hx : x < n)
    (hcube : (n - 1) * ((n - 1) * (n - 1)) < 2 ^ w) :
    ∀ y, mod_pow_w w x y n = mod_pow x y n := by
  intro y
  induction y using Nat.strong_induction_on with
  | _ y ih =>
    rcases Nat.eq_zero_or_pos y with hy | hy
    · subst hy
      rw [mod_pow_w_zero, mod_pow_zero]
    · have hy' : y ≠ 0 := by omega
      have hz := ih (y / 2) (Nat.div_lt_self hy Nat.one_lt_two)
      rw [mod_pow_w_succ w x y n hy', mod_pow_succ x y n hy', hz]
      have hzlt : mod_pow x (y / 2) n < n := mod_pow_lt x (y / 2) n hn
      set z := mod_pow x (y / 2) n
      have hzz : z * z < 2 ^ w := by
        calc z * z ≤ (n - 1) * (n - 1) := Nat.mul_le_mul (by omega) (by omega)
          _ ≤ (n - 1) * ((n - 1) * (n - 1)) :=
              Nat.le_mul_of_pos_left _ (by omega)
          _ < 2 ^ w := hcube
      have hxzz : x * z * z < 2 ^ w := by
        calc x * z * z ≤ (n - 1) * ((n - 1) * (n - 1)) := by
              rw [mul_assoc]
              exact Nat.mul_le_mul (by omega)
                (Nat.mul_le_mul (by omega) (by omega))
          _ < 2 ^ w := hcube
      by_cases hp : y % 2 = 0
      · rw [if_pos hp, if_pos hp, Nat.mod_eq_of_lt hzz]
      · rw [if_neg hp, if_neg hp, Nat.mod_eq_of_lt hxzz]

/-- Evaluation of the 64-bit `mod_pow` on the Fermat test of the
genuine prime `2642287` at witness `2642286`: the product `x * z * z`
wraps modulo `2 ^ 64` along the way and the result is `931035`, not
`1`. -/
lemma mod_pow_w_eval_fermat :
    mod_pow_w 64 2642286 2642286 2642287 = 931035 := by
  have h_base : mod_pow_w 64 2642286 0 2642287 = 1 :=
    mod_pow_w_zero 64 2642286 2642287
  have h0 : mod_pow_w 64 2642286 1 2642287 = 2642286 := by
    rw [mod_pow_w_succ 64 2642286 1 2642287 (by norm_num),
      show (1 : ℕ) / 2 = 0 from by norm_num, h_base]
    norm_num
  have h1 : mod_pow_w 64 2642286 2 2642287 = 1 := by
    rw [mod_pow_w_succ 64 2642286 2 2642287 (by norm_num),
      show (2 : ℕ) / 2 = 1 from by norm_num, h0]
    norm_num
  have h2 : mod_pow_w 64 2642286 5 2642287 = 2642286 := by
    rw [mod_pow_w_succ 64 2642286 5 2642287 (by norm_num),
      show (5 : ℕ) / 2 = 2 from by norm_num, h1]
    norm_num
  have h3 : mod_pow_w 64 2642286 10 2642287 = 1 := by
    rw [mod_pow_w_succ 64 2642286 10 2642287 (by norm_num),
      show (10 : ℕ) / 2 = 5 from by norm_num, h2]
    norm_num
  have h4 : mod_pow_w 64 2642286 20 2642287 = 1 := by
    rw [mod_pow_w_succ 64 2642286 20 2642287 (by norm_num),
      show (20 : ℕ) / 2 = 10 from by norm_num, h3]
    norm_num
  have h5 : mod_pow_w 64 2642286 40 2642287 = 1 := by
    rw [mod_pow_w_succ 64 2642286 40 2642287 (by norm_num),
      show (40 : ℕ) / 2 = 20 from by norm_num, h4]
    norm_num
  have h6 : mod_pow_w 64 2642286 80 2642287 = 1 := by
    rw [mod_pow_w_succ 64 2642286 80 2642287 (by norm_num),
      show (80 : ℕ) / 2 = 40 from by norm_num, h5]
    norm_num
  have h7 : mod_pow_w 64 2642286 161 2642287 = 2642286 := by
    rw [mod_pow_w_succ 64 2642286 161 2642287 (by norm_num),
      show (161 : ℕ) / 2 = 80 from by norm_num, h6]
    norm_num
  have h8 : mod_pow_w 64 2642286 322 2642287 = 1 := by
    rw [mod_pow_w_succ 64 2642286 322 2642287 (by norm_num),
      show (322 : ℕ) / 2 = 161 from by norm_num, h7]
    norm_num
  have h9 : mod_pow_w 64 2642286 645 2642287 = 2642286 := by
    rw [mod_pow_w_succ 64 2642286 645 2642287 (by norm_num),
      show (645 : ℕ) / 2 = 322 from by norm_num, h8]
    norm_num
  have h10 : mod_pow_w 64 2642286 1290 2642287 = 1 := by
    rw [mod_pow_w_succ 64 2642286 1290 2642287 (by norm_num),
      show (1290 : ℕ) / 2 = 645 from by norm_num, h9]
    norm_num
  have h11 : mod_pow_w 64 2642286 2580 2642287 = 1 := by
    rw [mod_pow_w_succ 64 2642286 2580 2642287 (by norm_num),
      show (2580 : ℕ) / 2 = 1290 from by norm_num, h10]
    norm_num
  have h12 : mod_pow_w 64 2642286 5160 2642287 = 1 := by
    rw [mod_pow_w_succ 64 2642286 5160 2642287 (by norm_num),
      show (5160 : ℕ) / 2 = 2580 from by norm_num, h11]
    norm_num
  have h13 : mod_pow_w 64 2642286 10321 2642287 = 2642286 := by
    rw [mod_pow_w_succ 64 2642286 10321 2642287 (by norm_num),
      show (10321 : ℕ) / 2 = 5160 from by norm_num, h12]
    norm_num
  have h14 : mod_pow_w 64 2642286 20642 2642287 = 1 := by
    rw [mod_pow_w_succ 64 2642286 20642 2642287 (by norm_num),
      show (20642 : ℕ) / 2 = 10321 from by norm_num, h13]
    norm_num
  have h15 : mod_pow_w 64 2642286 41285 2642287 = 2642286 := by
    rw [mod_pow_w_succ 64 2642286 41285 2642287 (by norm_num),
      show (41285 : ℕ) / 2 = 20642 from by norm_num, h14]
    norm_num
  have h16 : mod_pow_w 64 2642286 82571 2642287 = 1289750 := by
    rw [mod_pow_w_succ 64 2642286 82571 2642287 (by norm_num),
      show (82571 : ℕ) / 2 = 41285 from by norm_num, h15]
    norm_num
  have h17 : mod_pow_w 64 2642286 165142 2642287 = 639363 := by
    rw [mod_pow_w_succ 64 2642286 165142 2642287 (by norm_num),
      show (165142 : ℕ) / 2 = 82571 from by norm_num, h16]
    norm_num
  have h18 : mod_pow_w 64 2642286 330285 2642287 = 533714 := by
    rw [mod_pow_w_succ 64 2642286 330285 2642287 (by norm_num),
      show (330285 : ℕ) / 2 = 165142 from by norm_num, h17]
    norm_num
  have h19 : mod_pow_w 64 2642286 660571 2642287 = 1116239 := by
    rw [mod_pow_w_succ 64 2642286 660571 2642287 (by norm_num),
      show (660571 : ℕ) / 2 = 330285 from by norm_num, h18]
    norm_num
  have h20 : mod_pow_w 64 2642286 1321143 2642287 = 2068025 := by
    rw [mod_pow_w_succ 64 2642286 1321143 2642287 (by norm_num),
      show (1321143 : ℕ) / 2 = 660571 from by norm_num, h19]
    norm_num
  have h21 : mod_pow_w 64 2642286 2642286 2642287 = 931035 := by
    rw [mod_pow_w_succ 64 2642286 2642286 2642287 (by norm_num),
      show (2642286 : ℕ) / 2 = 1321143 from by norm_num, h20]
    norm_num
  exact h21

/-- C5, counterexample: `2642287` is a genuine prime and `2642286` a
witness in `[1, n - 1]`, yet on the 64-bit unsigned width the Fermat
test's `mod_pow` wraps and returns `931035 ≠ 1`, so `is_prime` returns
`false` for a genuine prime — a false negative, refuting the claimed
zero-false-negatives property. -/
theorem c5_is_prime_counterexample :
    Nat.Prime 2642287 ∧ 1 ≤ 2642286 ∧ 2642286 ≤ 2642287 - 1 ∧
      is_prime 64 2642287 [2642286] = false := by
  refine ⟨by norm_num, by norm_num, by norm_num, ?_⟩
  rw [is_prime, if_neg (by norm_num)]
  simp [mod_pow_w_eval_fermat]

/-- C5 (amended): `is_prime` returns `false` for every `n < 2` whatever
the random draws are; and for every genuinely prime `n` whose Fermat
arithmetic cannot overflow the `w`-bit width (`(n - 1)³ < 2 ^ w`), every
witness drawn from `[1, n - 1]` satisfies `mod_pow(a, n - 1, n) = 1`,
so `is_prime` returns `true` — zero false negatives below the overflow
threshold.  For larger primes the wrapped intermediate products can
fail the test (see the counterexample). -/
theorem c5_is_prime_complete :
    (∀ (w n : ℕ) (ws : List ℕ), n < 2 → is_prime w n ws = false) ∧
    (∀ (w n : ℕ) (ws : List ℕ), n.Prime →
      (n - 1) * ((n - 1) * (n - 1)) < 2 ^ w →
      (∀ a ∈ ws, 1 ≤ a ∧ a ≤ n - 1) → is_prime w n ws = true) := by
  constructor
  · intro w n ws hn
    simp [is_prime, hn]
  · intro w n ws hp hcube hws
    have h2 : 2 ≤ n := hp.two_le
    rw [is_prime, if_neg (by omega)]
    rw [List.all_eq_true]
    intro a ha
    obtain ⟨ha1, ha2⟩ := hws a ha
    rw [beq_iff_eq]
    rw [mod_pow_w_eq_mod_pow w a n h2 (by omega) hcube]
    rw [mod_pow_eq a (n - 1) n (by omega)]
    rw [if_neg (by omega)]
    exact fermat_witness_pow n a hp ha1 ha2

/-- C5, witness: the amended theorem applied at width 64, at `n = 1`
(with no draws) and at the prime `n = 2` with the only possible witness
draw `[1]`. -/
theorem c5_is_prime_complete_witness :
    is_prime 64 1 [] = false ∧ is_prime 64 2 [1] = true :=
  ⟨c5_is_prime_complete.1 64 1 [] (by norm_num),
   c5_is_prime_complete.2 64 2 [1] Nat.prime_two (by norm_num) (by decide)⟩

/-- C7: for every worker invocation with validated non-negative
`(partition_id, offset, size)` arguments and any random draws, the
worker's trace is exactly its `size` result-vector writes followed by a
single semaphore post: the post happens exactly once per run, occurs
after all writes, and is the last visible effect, regardless of how
many primes were found. -/
theorem c7_worker_single_post (w : ℕ) (rid off sz : ℤ) (h1 : 0 ≤ rid)
    (h2 : 0 ≤ off) (h3 : 0 ≤ sz) (ws : ℕ → List ℕ) :
    (worker_main w (some rid) (some off) (some sz) ws).2
        = ((List.range sz.toNat).map fun i =>
            WEffect.write rid.toNat i (is_prime w (off.toNat + i) (ws i)))
          ++ [WEffect.post] ∧
    ((worker_main w (some rid) (some off) (some sz) ws).2).count WEffect.post = 1 ∧
    ((worker_main w (some rid) (some off) (some sz) ws).2).getLast?
      = some WEffect.post := by
  have hm : (worker_main w (some rid) (some off) (some sz) ws).2
      = worker_trace w rid.toNat off.toNat sz.toNat ws := by
    simp only [worker_main, if_neg (not_lt.mpr h1), if_neg (not_lt.mpr h2),
      if_neg (not_lt.mpr h3)]
  rw [hm]
  unfold worker_trace
  refine ⟨rfl, ?_, List.getLast?_concat _⟩
  rw [List.count_append]
  have hzero : (((List.range sz.toNat).map fun i =>
      WEffect.write rid.toNat i (is_prime w (off.toNat + i) (ws i)))).count
        WEffect.post = 0 := by
    rw [List.count_eq_zero]
    intro hmem
    rw [List.mem_map] at hmem
    obtain ⟨i, _, heq⟩ := hmem
    exact WEffect.noConfusion heq
  rw [hzero, List.count_singleton_self]

/-- C7, witness: the theorem applied at width 64 and `(0, 0, 0)` with
empty draws. -/
theorem c7_worker_single_post_witness :
    (worker_main 64 (some 0) (some 0) (some 0) fun _ => []).2.count
      WEffect.post = 1 :=
  (c7_worker_single_post 64 0 0 0 (by norm_num) (by norm_num) (by norm_num)
    fun _ => []).2.1

/-- Frame lemma: running a trace containing no write to vector `q`
leaves vector `q` untouched. -/
lemma run_effects_frame (q : ℕ) :
    ∀ (es : List WEffect) (store : ℕ → List Bool),
      (∀ idx v, WEffect.write q idx v ∉ es) →
      run_effects store es q = store q := by
  intro es
  induction es with
  | nil => intro store _; rfl
  | cons e rest ih =>
    intro store hq
    have hstep : run_effects store (e :: rest)
        = run_effects (apply_write store e) rest := rfl
    rw [hstep,
      ih (apply_write store e) fun idx v hmem => hq idx v (List.mem_cons_of_mem e hmem)]
    cases e with
    | write i idx v =>
      have hqi : ¬ q = i := by
        intro h
        subst h
        exact hq idx v (List.mem_cons_self _ _)
      simp [apply_write, hqi]
    | post => rfl
    | errMsg => rfl

/-- C9: a worker invoked with partition id `p` modifies only vector `p`
of the shared result store: for every other index `q ≠ p`, vector `q`
(its full contents, hence its length and each entry) is unchanged
between worker start and worker exit. -/
theorem c9_worker_frame (w : ℕ) (store : ℕ → List Bool) (rid off sz : ℕ)
    (ws : ℕ → List ℕ) (q : ℕ) (hq : q ≠ rid) :
    run_effects store (worker_trace w rid off sz ws) q = store q ∧
    (run_effects store (worker_trace w rid off sz ws) q).length
      = (store q).length ∧
    ∀ j, (run_effects store (worker_trace w rid off sz ws) q).getD j false
      = (store q).getD j false := by
  have hmain : run_effects store (worker_trace w rid off sz ws) q = store q := by
    apply run_effects_frame
    intro idx v hmem
    unfold worker_trace at hmem
    rw [List.mem_append] at hmem
    rcases hmem with hmem | hmem
    · rw [List.mem_map] at hmem
      obtain ⟨i, _, heq⟩ := hmem
      injection heq with hrid _ _
      exact hq hrid.symm
    · rw [List.mem_singleton] at hmem
      exact WEffect.noConfusion hmem
  exact ⟨hmain, by rw [hmain], fun j => by rw [hmain]⟩

/-- C9, witness: the theorem applied at width 64 to the empty store, a
worker on partition 0 with an empty range, and the untouched
vector 1. -/
theorem c9_worker_frame_witness :
    run_effects (fun _ => []) (worker_trace 64 0 0 0 fun _ => []) 1 = [] :=
  (c9_worker_frame 64 (fun _ => []) 0 0 0 (fun _ => []) 1 (by norm_num)).1

/-- The failing-validation conditions of the orchestrator named by the
spec: a non-numeric argument, a negative prime count or worker count,
or a worker count exceeding the prime count after the zero-default
substitution (with a positive prime count, since `prime_count == 0`
exits first). -/
def failsValidation (a1 a2 : Option ℤ) (cpu : ℤ) : Prop :=
  a1 = none ∨ a2 = none ∨ (∃ v, a1 = some v ∧ v < 0) ∨
    (∃ v, a2 = some v ∧ v < 0) ∨
    (∃ pc wc, a1 = some pc ∧ a2 = some wc ∧ 0 < pc ∧ 0 ≤ wc ∧
      (if wc = 0 then min cpu pc else wc) > pc)

/-- Every failing-validation condition drives `validate` to the error
exit. -/
lemma validate_exitError (a1 a2 : Option ℤ) (cpu : ℤ)
    (h : failsValidation a1 a2 cpu) : validate a1 a2 cpu = .exitError := by
  unfold validate
  rcases h with h | h | ⟨v, h1, h2⟩ | ⟨v, h1, h2⟩ | ⟨pc, wc, h1, h2, h3, h4, h5⟩
  · subst h
    rfl
  · cases a1 with
    | none => rfl
    | some pc =>
      subst h
      by_cases hpc : pc < 0 <;> simp [hpc]
  · subst h1
    simp [h2]
  · subst h1
    cases a1 with
    | none => rfl
    | some pc =>
      by_cases hpc : pc < 0
      · simp [hpc]
      · simp [hpc, h2]
  · subst h1
    subst h2
    have hpc : ¬ pc < 0 := by omega
    have hwc : ¬ wc < 0 := by omega
    have hpc0 : ¬ pc = 0 := by omega
    simp [hpc, hwc, hpc0, h5]

/-- C6 (amended): whenever the orchestrator's arguments fail validation
(non-numeric argument, negative count, or worker count exceeding prime
count after the zero-default substitution), a diagnostic is written to
the error stream, the process exits with status 1, and the named store
and semaphore are not created — but the `atexit`-registered cleanup
still runs, attempting removal of the named semaphore and segment, so
the resources are not left entirely untouched. -/
theorem c6_validation_failure (a1 a2 : Option ℤ) (cpu : ℤ) (bound : ℕ)
    (rows : ℕ → List Bool) (h : failsValidation a1 a2 cpu) :
    (main_trace a1 a2 cpu bound rows).1 = 1 ∧
    Effect.errMsg ∈ (main_trace a1 a2 cpu bound rows).2 ∧
    Effect.createSegment ∉ (main_trace a1 a2 cpu bound rows).2 ∧
    Effect.createTables ∉ (main_trace a1 a2 cpu bound rows).2 ∧
    Effect.createSemaphore ∉ (main_trace a1 a2 cpu bound rows).2 ∧
    Effect.removeSemaphore ∈ (main_trace a1 a2 cpu bound rows).2 ∧
    Effect.removeSegment ∈ (main_trace a1 a2 cpu bound rows).2 := by
  have hv := validate_exitError a1 a2 cpu h
  simp only [main_trace]
  rw [hv]
  simp

/-- C6, counterexample: at `prime_count = 2`, `worker_count = 5` (a
validation failure), the claim as stated — exit 1, a diagnostic, and no
effect on the named store and semaphore at all — is false: the trace
ends with the `atexit` cleanup's removal of the named semaphore and
segment. -/
theorem c6_untouched_counterexample :
    ¬ ((main_trace (some 2) (some 5) 4 0 fun _ => []).1 = 1 ∧
       Effect.errMsg ∈ (main_trace (some 2) (some 5) 4 0 fun _ => []).2 ∧
       ∀ e ∈ (main_trace (some 2) (some 5) 4 0 fun _ => []).2,
         e ≠ Effect.createSegment ∧ e ≠ Effect.createTables ∧
         e ≠ Effect.createSemaphore ∧ e ≠ Effect.destroyTables ∧
         e ≠ Effect.removeSemaphore ∧ e ≠ Effect.removeSegment) := by
  decide

/-- C6, witness: the amended theorem applied at `prime_count = 2`,
`worker_count = 5`. -/
theorem c6_validation_failure_witness :
    (main_trace (some 2) (some 5) 4 0 fun _ => []).1 = 1 :=
  (c6_validation_failure (some 2) (some 5) 4 0 (fun _ => [])
    (Or.inr (Or.inr (Or.inr (Or.inr
      ⟨2, 5, rfl, rfl, by norm_num, by norm_num, by norm_num⟩))))).1

/-- C8: with `prime_count = 0` and any validly parsed `worker_count`,
the orchestrator short-circuits to exit: status 0, no output effects,
and neither the shared store nor the semaphore is created. -/
theorem c8_zero_primes (wc cpu : ℤ) (bound : ℕ) (rows : ℕ → List Bool)
    (hwc : 0 ≤ wc) :
    (main_trace (some 0) (some wc) cpu bound rows).1 = 0 ∧
    (∀ v, Effect.output v ∉ (main_trace (some 0) (some wc) cpu bound rows).2) ∧
    Effect.createSegment ∉ (main_trace (some 0) (some wc) cpu bound rows).2 ∧
    Effect.createTables ∉ (main_trace (some 0) (some wc) cpu bound rows).2 ∧
    Effect.createSemaphore ∉ (main_trace (some 0) (some wc) cpu bound rows).2 := by
  have hv : validate (some 0) (some wc) cpu = .exitOk := by
    unfold validate
    simp [not_lt.mpr hwc]
  simp only [main_trace]
  rw [hv]
  simp

/-- C8, witness: the theorem applied at `worker_count = 3`. -/
theorem c8_zero_primes_witness :
    (main_trace (some 0) (some 3) 4 0 fun _ => []).1 = 0 :=
  (c8_zero_primes 3 4 0 (fun _ => []) (by norm_num)).1

/-- Unfolding equation for `emitRow` on the empty row. -/
lemma emitRow_nil (offset j : ℕ) (c : ℤ) : emitRow offset j c [] = ([], c, false) :=
  rfl

/-- Unfolding equation for `emitRow` on a false entry. -/
lemma emitRow_cons_false (offset j : ℕ) (c : ℤ) (rest : List Bool) :
    emitRow offset j c (false :: rest) = emitRow offset (j + 1) c rest := rfl

/-- Unfolding equation for `emitRow` on a true entry that exhausts the
count. -/
lemma emitRow_cons_true_stop (offset j : ℕ) (c : ℤ) (rest : List Bool)
    (h : c - 1 = 0) :
    emitRow offset j c (true :: rest) = ([offset + j], c - 1, true) := by
  simp [emitRow, h]

/-- Unfolding equation for `emitRow` on a true entry with count left. -/
lemma emitRow_cons_true_go (offset j : ℕ) (c : ℤ) (rest : List Bool)
    (h : ¬ c - 1 = 0) :
    emitRow offset j c (true :: rest)
      = ((offset + j) :: (emitRow offset (j + 1) (c - 1) rest).1,
         (emitRow offset (j + 1) (c - 1) rest).2) := by
  simp [emitRow, h]

/-- Unfolding equation for `rowEmits` on the empty row. -/
lemma rowEmits_nil (offset j : ℕ) : rowEmits offset j [] = [] := rfl

/-- Unfolding equation for `rowEmits` on a false entry. -/
lemma rowEmits_cons_false (offset j : ℕ) (rest : List Bool) :
    rowEmits offset j (false :: rest) = rowEmits offset (j + 1) rest := rfl

/-- Unfolding equation for `rowEmits` on a true entry. -/
lemma rowEmits_cons_true (offset j : ℕ) (rest : List Bool) :
    rowEmits offset j (true :: rest) = (offset + j) :: rowEmits offset (j + 1) rest :=
  rfl

/-- Characterization of the inner aggregation loop for a positive
remaining count: it emits the true-entry values in order until the row
ends (continuing with the count reduced) or the count is exhausted
(stopping with the `goto` flag set). -/
lemma emitRow_eq :
    ∀ (row : List Bool) (offset j : ℕ) (c : ℤ), 1 ≤ c →
      emitRow offset j c row =
        (if ((rowEmits offset j row).length : ℤ) < c then
          (rowEmits offset j row, c - (rowEmits offset j row).length, false)
         else ((rowEmits offset j row).take c.toNat, 0, true)) := by
  intro row
  induction row with
  | nil =>
    intro offset j c hc
    rw [emitRow_nil, rowEmits_nil]
    rw [if_pos (by simp; omega)]
    simp
  | cons b rest ih =>
    intro offset j c hc
    cases b with
    | false =>
      rw [emitRow_cons_false, rowEmits_cons_false]
      exact ih offset (j + 1) c hc
    | true =>
      rw [rowEmits_cons_true]
      by_cases hc1 : c - 1 = 0
      · rw [emitRow_cons_true_stop offset j c rest hc1]
        rw [if_neg (by simp only [List.length_cons]; push_cast; omega)]
        have hto : c.toNat = 1 := by omega
        rw [hto, List.take_succ_cons, List.take_zero]
        simp [hc1]
      · rw [emitRow_cons_true_go offset j c rest hc1]
        rw [ih offset (j + 1) (c - 1) (by omega)]
        by_cases hlt : ((rowEmits offset (j + 1) rest).length : ℤ) < c - 1
        · rw [if_pos hlt]
          rw [if_pos (by simp only [List.length_cons]; push_cast; omega)]
          simp only [Prod.mk.injEq, List.length_cons]
          refine ⟨trivial, ?_, trivial⟩
          push_cast
          ring
        · rw [if_neg hlt]
          rw [if_neg (by simp only [List.length_cons]; push_cast; omega)]
          have hco : c.toNat = (c - 1).toNat + 1 := by omega
          rw [hco, List.take_succ_cons]

/-- Unfolding equation for `aggTables` on a first table. -/
lemma aggTables_cons (c : ℤ) (t : ℕ × List Bool) (rest : List (ℕ × List Bool)) :
    aggTables c (t :: rest) =
      if (emitRow t.1 0 c t.2).2.2 then (emitRow t.1 0 c t.2).1
      else (emitRow t.1 0 c t.2).1 ++ aggTables (emitRow t.1 0 c t.2).2.1 rest :=
  rfl

/-- Unfolding equation for `allEmits` on a first table. -/
lemma allEmits_cons (t : ℕ × List Bool) (rest : List (ℕ × List Bool)) :
    allEmits (t :: rest) = rowEmits t.1 0 t.2 ++ allEmits rest := by
  simp [allEmits]

/-- Characterization of the aggregation loop for a positive requested
count: it emits exactly the first `count` values of the full walk-order
emission list. -/
lemma aggTables_eq (ts : List (ℕ × List Bool)) : ∀ c : ℤ, 1 ≤ c →
    aggTables c ts = (allEmits ts).take c.toNat := by
  induction ts with
  | nil =>
    intro c hc
    simp [aggTables, allEmits]
  | cons t rest ih =>
    intro c hc
    rw [aggTables_cons, emitRow_eq t.2 t.1 0 c hc, allEmits_cons]
    by_cases hlt : ((rowEmits t.1 0 t.2).length : ℤ) < c
    · rw [if_pos hlt]
      dsimp only
      rw [if_neg (by simp)]
      rw [ih (c - (rowEmits t.1 0 t.2).length) (by omega)]
      rw [List.take_append_eq_append_take]
      rw [List.take_of_length_le (by omega : (rowEmits t.1 0 t.2).length ≤ c.toNat)]
      have : (c - ((rowEmits t.1 0 t.2).length : ℤ)).toNat
          = c.toNat - (rowEmits t.1 0 t.2).length := by omega
      rw [this]
    · rw [if_neg hlt]
      dsimp only
      rw [if_pos rfl]
      rw [List.take_append_eq_append_take]
      have : c.toNat - (rowEmits t.1 0 t.2).length = 0 := by omega
      rw [this, List.take_zero, List.append_nil]

/-- Every emitted value of one row lies in the row's value range. -/
lemma rowEmits_mem_bounds :
    ∀ (row : List Bool) (offset j x : ℕ), x ∈ rowEmits offset j row →
      offset + j ≤ x ∧ x < offset + j + row.length := by
  intro row
  induction row with
  | nil =>
    intro offset j x hx
    rw [rowEmits_nil] at hx
    cases hx
  | cons b rest ih =>
    intro offset j x hx
    cases b with
    | false =>
      rw [rowEmits_cons_false] at hx
      have := ih offset (j + 1) x hx
      simp only [List.length_cons]
      omega
    | true =>
      rw [rowEmits_cons_true] at hx
      simp only [List.length_cons]
      rcases List.mem_cons.mp hx with h | h
      · omega
      · have := ih offset (j + 1) x h
        omega

/-- The emitted values of one row are strictly increasing. -/
lemma rowEmits_pairwise :
    ∀ (row : List Bool) (offset j : ℕ),
      List.Pairwise (· < ·) (rowEmits offset j row) := by
  intro row
  induction row with
  | nil =>
    intro offset j
    rw [rowEmits_nil]
    exact List.Pairwise.nil
  | cons b rest ih =>
    intro offset j
    cases b with
    | false =>
      rw [rowEmits_cons_false]
      exact ih offset (j + 1)
    | true =>
      rw [rowEmits_cons_true]
      refine List.Pairwise.cons ?_ (ih offset (j + 1))
      intro y hy
      have := rowEmits_mem_bounds rest offset (j + 1) y hy
      omega

/-- Membership characterization of one row's emitted values: exactly
`offset + index` for the true entries. -/
lemma rowEmits_mem_iff :
    ∀ (row : List Bool) (offset j x : ℕ),
      x ∈ rowEmits offset j row ↔
        ∃ t, t < row.length ∧ row.getD t false = true ∧ x = offset + j + t := by
  intro row
  induction row with
  | nil =>
    intro offset j x
    rw [rowEmits_nil]
    simp
  | cons b rest ih =>
    intro offset j x
    cases b with
    | false =>
      rw [rowEmits_cons_false, ih offset (j + 1) x]
      constructor
      · rintro ⟨t, ht1, ht2, ht3⟩
        refine ⟨t + 1, ?_, by simpa using ht2, by omega⟩
        simp only [List.length_cons]
        omega
      · rintro ⟨t, ht1, ht2, ht3⟩
        cases t with
        | zero => simp at ht2
        | succ s =>
          refine ⟨s, ?_, by simpa using ht2, by omega⟩
          simp only [List.length_cons] at ht1
          omega
    | true =>
      rw [rowEmits_cons_true, List.mem_cons, ih offset (j + 1) x]
      constructor
      · rintro (h | ⟨t, ht1, ht2, ht3⟩)
        · exact ⟨0, by simp, by simp, by omega⟩
        · refine ⟨t + 1, ?_, by simpa using ht2, by omega⟩
          simp only [List.length_cons]
          omega
      · rintro ⟨t, ht1, ht2, ht3⟩
        cases t with
        | zero => left; omega
        | succ s =>
          right
          refine ⟨s, ?_, by simpa using ht2, by omega⟩
          simp only [List.length_cons] at ht1
          omega

/-- The walk-order emission list of the orchestrator's tables. -/
lemma allEmits_mkTables (bound k : ℕ) (rows : ℕ → List Bool) :
    allEmits (mkTables bound k rows)
      = ((List.range k).map fun i =>
          rowEmits (range_offset bound k i) 0 (rows i)).flatten := by
  unfold allEmits mkTables
  rw [List.map_map]
  rfl

/-- Membership characterization of the walk-order emission list. -/
lemma mem_allEmits_mkTables (bound k x : ℕ) (rows : ℕ → List Bool) :
    x ∈ allEmits (mkTables bound k rows) ↔
      ∃ i, i < k ∧ ∃ t, t < (rows i).length ∧ (rows i).getD t false = true ∧
        x = range_offset bound k i + t := by
  rw [allEmits_mkTables, List.mem_flatten]
  constructor
  · rintro ⟨l, hl, hx⟩
    rw [List.mem_map] at hl
    obtain ⟨i, hi, rfl⟩ := hl
    rw [List.mem_range] at hi
    rw [rowEmits_mem_iff] at hx
    obtain ⟨t, ht1, ht2, ht3⟩ := hx
    exact ⟨i, hi, t, ht1, ht2, by omega⟩
  · rintro ⟨i, hi, t, ht1, ht2, ht3⟩
    refine ⟨rowEmits (range_offset bound k i) 0 (rows i), ?_, ?_⟩
    · rw [List.mem_map]
      exact ⟨i, List.mem_range.mpr hi, rfl⟩
    · rw [rowEmits_mem_iff]
      exact ⟨t, ht1, ht2, by omega⟩

/-- With vector lengths matching the partition sizes, the walk-order
emission list is strictly increasing. -/
lemma allEmits_mkTables_pairwise (bound k : ℕ) (rows : ℕ → List Bool)
    (hlen : ∀ i, i < k → (rows i).length = range_size bound k i) :
    List.Pairwise (· < ·) (allEmits (mkTables bound k rows)) := by
  rw [allEmits_mkTables, List.pairwise_flatten]
  constructor
  · intro l hl
    rw [List.mem_map] at hl
    obtain ⟨i, _, rfl⟩ := hl
    exact rowEmits_pairwise (rows i) (range_offset bound k i) 0
  · rw [List.pairwise_map]
    have hpr : List.Pairwise (· < ·) (List.range k) := List.pairwise_lt_range k
    refine hpr.imp_of_mem ?_
    intro i j hi hj hij
    intro x hx y hy
    have hxb := rowEmits_mem_bounds (rows i) (range_offset bound k i) 0 x hx
    have hyb := rowEmits_mem_bounds (rows j) (range_offset bound k j) 0 y hy
    rw [List.mem_range] at hi hj
    have hdis := range_disjoint bound k i j hij
    have hli := hlen i hi
    omega

/-- C4: for any store contents over the ascending-offset partitions
(vectors of the partition sizes, arbitrary booleans) and any requested
`prime_count ≥ 1`, the aggregation loop emits exactly the first
`prime_count` values of the walk-order emission list (partitions in
ascending id order, entries in ascending index order) — so it emits
`offset + index` exactly for true entries, emits at most `prime_count`
integers, stops the instant the `prime_count`-th is emitted, and the
emitted sequence is strictly increasing. -/
theorem c4_aggregation (bound k : ℕ) (hb : 0 < bound) (hk : 1 ≤ k)
    (hkb : k ≤ bound) (rows : ℕ → List Bool)
    (hlen : ∀ i, i < k → (rows i).length = range_size bound k i)
    (c : ℤ) (hc : 1 ≤ c) :
    aggTables c (mkTables bound k rows)
        = (allEmits (mkTables bound k rows)).take c.toNat ∧
    (∀ x, x ∈ allEmits (mkTables bound k rows) ↔
      ∃ i, i < k ∧ ∃ t, t < range_size bound k i ∧ (rows i).getD t false = true ∧
        x = range_offset bound k i + t) ∧
    (aggTables c (mkTables bound k rows)).length ≤ c.toNat ∧
    (c ≤ ((allEmits (mkTables bound k rows)).length : ℤ) →
      ((aggTables c (mkTables bound k rows)).length : ℤ) = c) ∧
    List.Pairwise (· < ·) (aggTables c (mkTables bound k rows)) := by
  have hagg := aggTables_eq (mkTables bound k rows) c hc
  refine ⟨hagg, ?_, ?_, ?_, ?_⟩
  · intro x
    rw [mem_allEmits_mkTables]
    constructor
    · rintro ⟨i, hi, t, ht1, ht2, ht3⟩
      exact ⟨i, hi, t, by rw [hlen i hi] at ht1; exact ht1, ht2, ht3⟩
    · rintro ⟨i, hi, t, ht1, ht2, ht3⟩
      exact ⟨i, hi, t, by rw [hlen i hi]; exact ht1, ht2, ht3⟩
  · rw [hagg, List.length_take]
    omega
  · intro hcl
    rw [hagg, List.length_take]
    omega
  · rw [hagg]
    exact List.Pairwise.sublist (List.take_sublist _ _)
      (allEmits_mkTables_pairwise bound k rows hlen)

/-- C4, witness: the theorem applied at `bound = 10`, two partitions of
size 5, the store vectors `[true, false, true, false, false]`, and
`prime_count = 3`. -/
theorem c4_aggregation_witness :
    aggTables 3 (mkTables 10 2 fun _ => [true, false, true, false, false])
      = (allEmits (mkTables 10 2 fun _ => [true, false, true, false, false])).take
          (3 : ℤ).toNat :=
  (c4_aggregation 10 2 (by norm_num) (by norm_num) (by norm_num)
    (fun _ => [true, false, true, false, false]) (by decide) 3 (by norm_num)).1

end DistributedPrimes
